import Mathlib

/-!
Verification of the repository's specified reverse-mode automatic
differentiation core and of the TensorBoard notebook's `select_n_random`
helper.  The autograd engine itself is not present in the repository's
sources (the notebooks only call into it), so the engine is modelled from
the specification's data model and component design; `select_n_random` is
embedded directly from the notebook source.
-/

set_option autoImplicit false

namespace AutogradSpec

/-- Modelled from the spec: a Value's numeric payload — a multi-dimensional
numeric array with a shape (tuple of dimensions) and flat element data.
Exact rationals stand in for the host numeric type. -/
structure Tensor where
  shape : List Nat
  data : List ℚ
deriving DecidableEq

/-- Elementwise addition of payloads (same shape assumed checked by caller). -/
def addT (a b : Tensor) : Tensor :=
  ⟨a.shape, List.zipWith (· + ·) a.data b.data⟩

/-- Elementwise multiplication of payloads. -/
def mulT (a b : Tensor) : Tensor :=
  ⟨a.shape, List.zipWith (· * ·) a.data b.data⟩

/-- Multiply every element by a scalar constant. -/
def scaleT (c : ℚ) (a : Tensor) : Tensor :=
  ⟨a.shape, a.data.map (fun v => c * v)⟩

/-- Add a scalar constant to every element (scalar broadcast). -/
def addcT (c : ℚ) (a : Tensor) : Tensor :=
  ⟨a.shape, a.data.map (fun v => v + c)⟩

/-- Sum of all elements. -/
def sumT (a : Tensor) : ℚ :=
  a.data.foldr (· + ·) 0

/-- Element count of a payload. -/
def elemCount (a : Tensor) : Nat :=
  a.data.length

/-- Constant payload of a given shape and element count. -/
def fullT (shape : List Nat) (n : Nat) (v : ℚ) : Tensor :=
  ⟨shape, List.replicate n v⟩

/-- Ones payload matching a given payload's shape and element count. -/
def onesLike (a : Tensor) : Tensor :=
  fullT a.shape (elemCount a) 1

/-- Mean reduction over all elements: a scalar payload. -/
def meanT (a : Tensor) : Tensor :=
  ⟨[], [sumT a / (elemCount a : ℚ)]⟩

/-- Modelled from the spec: a Value — payload, differentiation flag, optional
owning Operation Record (an index into the graph's record arena, `none` for
user-created leaves) and optional gradient accumulator. -/
structure Value where
  payload : Tensor
  requiresGrad : Bool
  gradFn : Option Nat
  grad : Option Tensor
deriving DecidableEq

/-- Modelled from the spec: the primitive operation of an Operation Record,
holding the input Value indices and the saved state its backward rule needs
(operand payloads for multiply; original shape and element count for mean). -/
inductive OpKind where
  | add (i j : Nat)
  | addc (i : Nat) (c : ℚ)
  | mul (i j : Nat) (pa pb : Tensor)
  | mulc (i : Nat) (c : ℚ)
  | mean (i : Nat) (shape : List Nat) (n : Nat)
deriving DecidableEq

/-- Modelled from the spec: an Operation Record — one recorded forward
computation together with the index of the Value it produced. -/
structure Record where
  op : OpKind
  out : Nat
deriving DecidableEq

/-- The input Value indices referenced by a record, in positional order. -/
def recInputs (r : Record) : List Nat :=
  match r.op with
  | .add i j => [i, j]
  | .addc i _ => [i]
  | .mul i j _ _ => [i, j]
  | .mulc i _ => [i]
  | .mean i _ _ => [i]

/-- Modelled from the spec: the Computation Graph — an arena of Values and
Operation Records indexed by creation sequence, plus a flag recording whether
the records have been released by a non-retaining backward pass. -/
structure Graph where
  values : List Value
  records : List Record
  freed : Bool
deriving DecidableEq

/-- The empty graph. -/
def Graph.empty : Graph := ⟨[], [], false⟩

/-- Modelled from the spec: the error taxonomy — ShapeError, GraphError,
FlagError. -/
inductive Err where
  | shapeError
  | graphError
  | flagError
deriving DecidableEq

/-- Look up a Value by its creation index. -/
def getV (g : Graph) (i : Nat) : Option Value :=
  g.values[i]?

/-- Modelled from the spec: construction of a user-created leaf Value from a
literal payload with a differentiation flag. -/
def mkLeaf (g : Graph) (t : Tensor) (rg : Bool) : Graph × Nat :=
  (⟨g.values ++ [⟨t, rg, none, none⟩], g.records, g.freed⟩, g.values.length)

/-- Modelled from the spec: allocate the output Value of a forward call with
differentiation flag `rg`; only if the flag is true is a new Operation Record
attached referencing the call's inputs and rule. -/
def emit (g : Graph) (payload : Tensor) (rg : Bool) (op : OpKind) : Graph × Nat :=
  if rg then
    (⟨g.values ++ [⟨payload, true, some g.records.length, none⟩],
      g.records ++ [⟨op, g.values.length⟩], g.freed⟩, g.values.length)
  else
    (⟨g.values ++ [⟨payload, false, none, none⟩], g.records, g.freed⟩,
      g.values.length)

/-- Modelled from the spec: elementwise add of two Values; validates shape
compatibility (ShapeError on a mismatch not resolvable by broadcasting),
output flag is the OR of the input flags. -/
def applyAdd (g : Graph) (i j : Nat) : Except Err (Graph × Nat) :=
  match getV g i, getV g j with
  | some a, some b =>
      if a.payload.shape = b.payload.shape then
        .ok (emit g (addT a.payload b.payload)
              (a.requiresGrad || b.requiresGrad) (.add i j))
      else .error .shapeError
  | _, _ => .error .graphError

/-- Modelled from the spec: add a scalar constant to a Value (broadcast is
always resolvable, so no shape check). -/
def applyAddc (g : Graph) (i : Nat) (c : ℚ) : Except Err (Graph × Nat) :=
  match getV g i with
  | some a => .ok (emit g (addcT c a.payload) a.requiresGrad (.addc i c))
  | none => .error .graphError

/-- Modelled from the spec: elementwise multiply of two Values; the record
saves both operand payloads for the backward rule. -/
def applyMul (g : Graph) (i j : Nat) : Except Err (Graph × Nat) :=
  match getV g i, getV g j with
  | some a, some b =>
      if a.payload.shape = b.payload.shape then
        .ok (emit g (mulT a.payload b.payload)
              (a.requiresGrad || b.requiresGrad) (.mul i j a.payload b.payload))
      else .error .shapeError
  | _, _ => .error .graphError

/-- Modelled from the spec: multiply a Value by a scalar constant. -/
def applyMulc (g : Graph) (i : Nat) (c : ℚ) : Except Err (Graph × Nat) :=
  match getV g i with
  | some a => .ok (emit g (scaleT c a.payload) a.requiresGrad (.mulc i c))
  | none => .error .graphError

/-- Modelled from the spec: mean reduction over all elements; the record
saves the original shape and element count for the backward rule. -/
def applyMean (g : Graph) (i : Nat) : Except Err (Graph × Nat) :=
  match getV g i with
  | some a =>
      .ok (emit g (meanT a.payload) a.requiresGrad
            (.mean i a.payload.shape (elemCount a.payload)))
  | none => .error .graphError

/-- Modelled from the spec: `detach()` — a new Value sharing the same
payload, with no owning Operation Record and the differentiation flag
cleared. -/
def detach (g : Graph) (i : Nat) : Except Err (Graph × Nat) :=
  match getV g i with
  | some v =>
      .ok (⟨g.values ++ [⟨v.payload, false, none, none⟩], g.records, g.freed⟩,
        g.values.length)
  | none => .error .graphError

/-- Modelled from the spec: `requires_grad(flag)` — mutate the flag in
place. -/
def setRG (g : Graph) (i : Nat) (b : Bool) : Graph :=
  match getV g i with
  | some v => ⟨g.values.set i { v with requiresGrad := b }, g.records, g.freed⟩
  | none => g

/-- Modelled from the spec: a record's backward rule — given the output
gradient, the gradient contribution to each input Value, aligned
positionally.  Add passes the gradient unchanged to both operands; multiply
scales by the other operand's saved payload; mean divides by the element
count and broadcasts to the original shape. -/
def contrib (r : Record) (g : Tensor) : List (Nat × Tensor) :=
  match r.op with
  | .add i j => [(i, g), (j, g)]
  | .addc i _ => [(i, g)]
  | .mul i j pa pb => [(i, mulT g pb), (j, mulT g pa)]
  | .mulc i c => [(i, scaleT c g)]
  | .mean i shape n => [(i, fullT shape n (g.data.headD 0 / (n : ℚ)))]

/-- Accumulated gradients during a backward pass, by Value index. -/
def GradMap : Type := Nat → Option Tensor

/-- Sum a new contribution into an optional accumulator (never overwrite). -/
def addOpt (old : Option Tensor) (c : Tensor) : Tensor :=
  match old with
  | none => c
  | some t => addT t c

/-- Accumulate one positional contribution into the gradient map. -/
def accOne (gm : GradMap) (p : Nat × Tensor) : GradMap :=
  fun k => if k = p.1 then some (addOpt (gm p.1) p.2) else gm k

/-- Modelled from the spec: process one record during gradient propagation —
call its backward rule with the accumulated gradient at its output Value and
sum the returned gradients into each input's accumulator; a record whose
output holds no accumulated gradient is skipped. -/
def processRecord (gm : GradMap) (r : Record) : GradMap :=
  match gm r.out with
  | none => gm
  | some g => (contrib r g).foldl accOne gm

/-- Modelled from the spec: the Backward Engine's propagation — initialize
the terminal Value's accumulator to the seed and walk the records in reverse
creation order (a reverse topological order, since records reference only
earlier Values). -/
def propagateAll (records : List Record) (t : Nat) (seed : Tensor) : GradMap :=
  records.foldr (fun r gm => processRecord gm r)
    (fun k => if k = t then some seed else none)

/-- The gradient a backward pass from `t` with seed `seed` delivers to each
leaf Value with its flag set; non-leaf Values and flag-unset leaves receive
no update. -/
def backwardDelta (g : Graph) (t : Nat) (seed : Tensor) : GradMap :=
  fun k =>
    match getV g k with
    | some v =>
        if v.requiresGrad && v.gradFn.isNone then propagateAll g.records t seed k
        else none
    | none => none

/-- Write a gradient map into the value arena, summing into any existing
accumulator; `k` is the index of the first listed value. -/
def writeGrads (gm : GradMap) : Nat → List Value → List Value
  | _, [] => []
  | k, v :: vs =>
      (match gm k with
       | some d => { v with grad := some (addOpt v.grad d) }
       | none => v) :: writeGrads gm (k + 1) vs

/-- Modelled from the spec: seed resolution for `backward(seed)` — the seed
is required unless the payload is scalar (single element), in which case it
defaults to a unit seed of matching shape; a ShapeError is raised when the
seed's shape does not match the payload's shape. -/
def resolveSeed (v : Value) (seed : Option Tensor) : Except Err Tensor :=
  match seed with
  | some s => if s.shape = v.payload.shape then .ok s else .error .shapeError
  | none =>
      if elemCount v.payload = 1 then .ok ⟨v.payload.shape, [1]⟩
      else .error .shapeError

/-- Modelled from the spec: the Backward Engine — single pass per call.
Raises GraphError on an already-released graph or on a Value with no
differentiable path; resolves the seed; accumulates gradients into the leaf
accumulators; unless retention is requested, releases the graph so a second
pass raises GraphError. -/
def backward (g : Graph) (t : Nat) (seed : Option Tensor) (retain : Bool) :
    Except Err Graph :=
  if g.freed then .error .graphError
  else
    match getV g t with
    | none => .error .graphError
    | some v =>
        if v.gradFn.isNone && !v.requiresGrad then .error .graphError
        else
          match resolveSeed v seed with
          | .error e => .error e
          | .ok s =>
              .ok ⟨writeGrads (backwardDelta g t s) 0 g.values, g.records, !retain⟩

/-- One forward construction step of a define-by-run program. -/
inductive Step where
  | leaf (t : Tensor) (rg : Bool)
  | add (i j : Nat)
  | addc (i : Nat) (c : ℚ)
  | mul (i j : Nat)
  | mulc (i : Nat) (c : ℚ)
  | mean (i : Nat)
deriving DecidableEq

/-- Execute one forward step. -/
def runStep (g : Graph) : Step → Except Err Graph
  | .leaf t rg => .ok (mkLeaf g t rg).1
  | .add i j => (applyAdd g i j).map Prod.fst
  | .addc i c => (applyAddc g i c).map Prod.fst
  | .mul i j => (applyMul g i j).map Prod.fst
  | .mulc i c => (applyMulc g i c).map Prod.fst
  | .mean i => (applyMean g i).map Prod.fst

/-- Execute a list of forward steps in order. -/
def run (g : Graph) : List Step → Except Err Graph
  | [] => .ok g
  | s :: ss =>
      match runStep g s with
      | .ok g1 => run g1 ss
      | .error e => .error e

/-- The Value indices a step consumes as operation inputs. -/
def stepIds : Step → List Nat
  | .leaf _ _ => []
  | .add i j => [i, j]
  | .addc i _ => [i]
  | .mul i j => [i, j]
  | .mulc i _ => [i]
  | .mean i => [i]

/-- Every step of the program consumes only Values of index at least `b`. -/
def StepsAbove (b : Nat) (ss : List Step) : Prop :=
  ∀ s ∈ ss, ∀ i ∈ stepIds s, b ≤ i

/-- Well-formedness of a graph: every record references only input Values
created strictly before its output Value, outputs lie inside the arena, and
every Value's owning-record reference points at the record that produced
it. -/
def WF (g : Graph) : Prop :=
  (∀ (k : Nat) (r : Record), g.records[k]? = some r →
      (∀ i ∈ recInputs r, i < r.out) ∧ r.out < g.values.length) ∧
  (∀ (i : Nat) (v : Value) (k : Nat), g.values[i]? = some v → v.gradFn = some k →
      ∃ r, g.records[k]? = some r ∧ r.out = i)

/-- The graph-edge relation from a Value to an input of its owning record:
one step of the transitive closure Operation Record → input Value. -/
def parent (g : Graph) (i j : Nat) : Prop :=
  ∃ v k r, g.values[i]? = some v ∧ v.gradFn = some k ∧
    g.records[k]? = some r ∧ j ∈ recInputs r

/-- The gradient accumulator of the Value at index `k`. -/
def gradAt (g : Graph) (k : Nat) : Option (Option Tensor) :=
  (getV g k).map Value.grad

/-- The gradient accumulator of Value 0 after a possibly failing pipeline. -/
def xGradOf (e : Except Err Graph) : Option (Option Tensor) :=
  match e with
  | .ok g => gradAt g 0
  | .error _ => none

/-- A gradient map holding no entry below index `b`. -/
def Above (b : Nat) (gm : GradMap) : Prop :=
  ∀ k, k < b → gm k = none

/-- Sum a list of gradient contributions into an optional accumulator, one at
a time, never overwriting. -/
def foldAdd (old : Option Tensor) (cs : List Tensor) : Option Tensor :=
  cs.foldl (fun o c => some (addOpt o c)) old

end AutogradSpec

namespace TBoard

/-- Failure of the `assert len(data) == len(labels)` statement in
`select_n_random`. -/
inductive TErr where
  | assertFailed
deriving DecidableEq

/-- Advanced indexing `xs[perm]`: gather the elements of `xs` at the index
list `perm` (out-of-range indices contribute nothing; a valid permutation
never goes out of range). -/
def indexSelect {α : Type} (xs : List α) (perm : List Nat) : List α :=
  perm.filterMap (fun i => xs[i]?)

/-- The notebook's helper: assert the two sequences have equal length, draw a
random permutation `perm` of the indices (passed here as a parameter, since
`torch.randperm` is the random source), permute both sequences identically
and keep the first `n` of each. -/
def select_n_random {α β : Type} (data : List α) (labels : List β)
    (perm : List Nat) (n : Nat) : Except TErr (List α × List β) :=
  if data.length = labels.length then
    .ok ((indexSelect data perm).take n, (indexSelect labels perm).take n)
  else .error .assertFailed

end TBoard

/-! ## Lemmas and claim theorems -/

namespace TBoard

theorem filterMap_isSome_length {α β : Type} (f : α → Option β) :
    ∀ (l : List α), (∀ a ∈ l, (f a).isSome) → (l.filterMap f).length = l.length := by
  intro l
  induction l with
  | nil => intro _; rfl
  | cons a l ih =>
      intro h
      cases hf : f a with
      | none =>
          have ha := h a (by simp)
          rw [hf] at ha
          simp at ha
      | some b =>
          simp only [List.filterMap_cons, hf, List.length_cons]
          rw [ih (fun x hx => h x (by simp [hx]))]

theorem indexSelect_length {α : Type} (xs : List α) (perm : List Nat)
    (h : ∀ p ∈ perm, p < xs.length) :
    (indexSelect xs perm).length = perm.length := by
  refine filterMap_isSome_length _ _ (fun p hp => ?_)
  rw [List.getElem?_eq_getElem (h p hp)]
  rfl

theorem indexSelect_get {α : Type} (xs : List α) :
    ∀ (perm : List Nat) (k i : Nat), (∀ p ∈ perm, p < xs.length) →
      perm[k]? = some i → (indexSelect xs perm)[k]? = xs[i]? := by
  intro perm
  induction perm with
  | nil => intro k i _ hk; simp at hk
  | cons p rest ih =>
      intro k i h hk
      have hp : p < xs.length := h p (by simp)
      have hsel : indexSelect xs (p :: rest) = xs[p] :: indexSelect xs rest := by
        simp only [indexSelect, List.filterMap_cons, List.getElem?_eq_getElem hp]
      cases k with
      | zero =>
          simp only [List.getElem?_cons_zero, Option.some.injEq] at hk
          subst hk
          rw [hsel]
          simp [List.getElem?_eq_getElem hp]
      | succ k =>
          simp only [List.getElem?_cons_succ] at hk
          rw [hsel]
          simpa using ih k i (fun q hq => h q (by simp [hq])) hk

/-- C10: for equal-length sequences, `select_n_random` keeps exactly
`min n length` pairs of each sequence, permuting both by the same
permutation so the k-th returned datapoint and label come from the same
original index; on a length mismatch it fails on the assertion before
selecting anything. -/
theorem select_n_random_spec (α β : Type) (data : List α) (labels : List β)
    (perm : List Nat) (n : Nat) :
    (data.length ≠ labels.length →
        select_n_random data labels perm n = .error .assertFailed) ∧
    (data.length = labels.length → perm.length = data.length →
      (∀ p ∈ perm, p < data.length) →
      ∃ o1 o2, select_n_random data labels perm n = .ok (o1, o2) ∧
        o1.length = min n data.length ∧ o2.length = min n labels.length ∧
        (∀ k i, k < n → perm[k]? = some i →
          o1[k]? = data[i]? ∧ o2[k]? = labels[i]?)) := by
  constructor
  · intro hne
    simp [select_n_random, hne]
  · intro heq hlen hbound
    refine ⟨(indexSelect data perm).take n, (indexSelect labels perm).take n, ?_, ?_, ?_, ?_⟩
    · simp [select_n_random, heq]
    · rw [List.length_take, indexSelect_length data perm hbound, hlen]
    · rw [List.length_take, indexSelect_length labels perm
        (fun p hp => by rw [← heq]; exact hbound p hp), hlen, heq]
    · intro k i hk hki
      constructor
      · rw [List.getElem?_take, if_pos hk, indexSelect_get data perm k i hbound hki]
      · rw [List.getElem?_take, if_pos hk, indexSelect_get labels perm k i
          (fun p hp => by rw [← heq]; exact hbound p hp) hki]

/-- C10 witness: the theorem applied to a concrete four-element dataset with
a concrete permutation. -/
theorem select_n_random_spec_witness :
    ((10 : Nat) ≠ 10 → False) ∧
    (∃ o1 o2, select_n_random [10, 20, 30, 40] ["a", "b", "c", "d"] [2, 0, 3, 1] 3
        = .ok (o1, o2) ∧
      o1.length = min 3 4 ∧ o2.length = min 3 4 ∧
      (∀ k i, k < 3 → [2, 0, 3, 1][k]? = some i →
        o1[k]? = [10, 20, 30, 40][k]?.bind (fun _ => [10, 20, 30, 40][i]?) ∨
        o1[k]? = [10, 20, 30, 40][i]?)) := by
  constructor
  · intro h; exact h rfl
  · obtain ⟨o1, o2, h1, h2, h3, h4⟩ :=
      (select_n_random_spec Nat String [10, 20, 30, 40] ["a", "b", "c", "d"]
        [2, 0, 3, 1] 3).2 (by decide) (by decide) (by decide)
    exact ⟨o1, o2, h1, h2, h3, fun k i hk hki => Or.inr ((h4 k i hk hki).1)⟩

end TBoard

namespace AutogradSpec

theorem foldl_accOne_eq (cs : List (Nat × Tensor)) :
    ∀ (gm : GradMap) (k : Nat),
      (cs.foldl accOne gm) k
        = foldAdd (gm k) ((cs.filter (fun p => p.1 == k)).map Prod.snd) := by
  induction cs with
  | nil => intro gm k; rfl
  | cons p cs ih =>
      intro gm k
      obtain ⟨i, c⟩ := p
      by_cases hik : i = k
      · subst hik
        simp only [List.foldl_cons, List.filter_cons, beq_self_eq_true, if_pos,
          List.map_cons]
        rw [ih]
        have hacc : accOne gm (i, c) i = some (addOpt (gm i) c) := by
          simp [accOne]
        rw [hacc]
        rfl
      · have hbeq : ((i, c).1 == k) = false := by
          simp [hik]
        simp only [List.foldl_cons, List.filter_cons, hbeq, Bool.false_eq_true,
          if_false]
        rw [ih]
        have hacc : accOne gm (i, c) k = gm k := by
          simp [accOne, Ne.symm hik]
        rw [hacc]

/-- C2: during gradient propagation, processing a record sums the
contributions its backward rule returns into each input Value's accumulator
(summation over every contribution aimed at that Value, never overwrite);
concretely, in a diamond graph where Value 0 feeds two scalings (by 3 and by
5) later re-joined by an add, the leaf's gradient is the sum 3 + 5 of both
paths' contributions. -/
theorem backward_accumulates_sum :
    (∀ (gm : GradMap) (r : Record) (gout : Tensor) (k : Nat),
        gm r.out = some gout →
        processRecord gm r k
          = foldAdd (gm k)
              (((contrib r gout).filter (fun p => p.1 == k)).map Prod.snd)) ∧
    xGradOf ((run Graph.empty
        [.leaf ⟨[], [5]⟩ true, .mulc 0 3, .mulc 0 5, .add 1 2]).bind
        (fun g => backward g 3 none false))
      = some (some ⟨[], [3 + 5]⟩) := by
  constructor
  · intro gm r gout k h
    unfold processRecord
    rw [h]
    exact foldl_accOne_eq _ gm k
  · norm_num [run, runStep, applyMulc, applyAdd, getV, mkLeaf, emit, Except.map,
      Except.bind, backward, resolveSeed, elemCount, backwardDelta, propagateAll,
      processRecord, contrib, accOne, addOpt, writeGrads, gradAt, xGradOf,
      scaleT, addT, mulT, fullT, Graph.empty]

/-- C2 witness: the summation property applied to a concrete gradient map
and a concrete add record consuming Value 0 twice. -/
theorem backward_accumulates_sum_witness :
    processRecord (fun k => if k = 2 then some ⟨[], [1]⟩ else none) ⟨.add 0 0, 2⟩ 0
      = foldAdd ((fun k => if k = 2 then some ⟨[], [1]⟩ else none) 0)
          (((contrib ⟨.add 0 0, 2⟩ ⟨[], [1]⟩).filter (fun p => p.1 == 0)).map
            Prod.snd) :=
  backward_accumulates_sum.1 (fun k => if k = 2 then some ⟨[], [1]⟩ else none)
    ⟨.add 0 0, 2⟩ ⟨[], [1]⟩ 0 rfl

/-- C3: on a live graph and a terminal with a differentiable path, a seedless
`backward` on a non-scalar payload fails (the seed is required), an explicit
seed whose shape mismatches the payload's shape raises ShapeError, and a
seedless call on a scalar payload behaves identically to `backward` with the
explicit unit seed of matching shape. -/
theorem backward_seed_contract (g : Graph) (t : Nat) (v : Value) (retain : Bool)
    (hfr : g.freed = false) (hget : getV g t = some v)
    (hpath : (v.gradFn.isNone && !v.requiresGrad) = false) :
    (elemCount v.payload ≠ 1 → backward g t none retain = .error .shapeError) ∧
    (∀ s : Tensor, s.shape ≠ v.payload.shape →
        backward g t (some s) retain = .error .shapeError) ∧
    (elemCount v.payload = 1 →
        backward g t none retain
          = backward g t (some ⟨v.payload.shape, [1]⟩) retain) := by
  refine ⟨?_, ?_, ?_⟩
  · intro hne
    simp [backward, hfr, hget, hpath, resolveSeed, hne]
  · intro s hs
    simp [backward, hfr, hget, hpath, resolveSeed, hs]
  · intro hone
    simp [backward, hfr, hget, hpath, resolveSeed, hone]

/-- C3 witness: the contract applied to a one-value graph whose terminal is a
scalar leaf with differentiation enabled. -/
theorem backward_seed_contract_witness :
    (elemCount (⟨[], [2]⟩ : Tensor) ≠ 1 →
        backward ⟨[⟨⟨[], [2]⟩, true, none, none⟩], [], false⟩ 0 none false
          = .error .shapeError) ∧
    (∀ s : Tensor, s.shape ≠ (⟨[], [2]⟩ : Tensor).shape →
        backward ⟨[⟨⟨[], [2]⟩, true, none, none⟩], [], false⟩ 0 (some s) false
          = .error .shapeError) ∧
    (elemCount (⟨[], [2]⟩ : Tensor) = 1 →
        backward ⟨[⟨⟨[], [2]⟩, true, none, none⟩], [], false⟩ 0 none false
          = backward ⟨[⟨⟨[], [2]⟩, true, none, none⟩], [], false⟩ 0
              (some ⟨[], [1]⟩) false) :=
  backward_seed_contract ⟨[⟨⟨[], [2]⟩, true, none, none⟩], [], false⟩ 0
    ⟨⟨[], [2]⟩, true, none, none⟩ false rfl rfl rfl

/-- C5 counterexample: for a non-scalar `x` (shape 2, two elements) with
differentiation enabled, `y = x + 2; y.backward()` does not leave `x.grad`
equal to ones — the seedless `backward()` call on the non-scalar `y` raises
ShapeError instead, so no gradient is produced at all. -/
theorem add_backward_seedless_nonscalar_fails :
    (run Graph.empty [.leaf ⟨[2], [1, 1]⟩ true, .addc 0 2]).bind
        (fun g => backward g 1 none false)
      = .error .shapeError := by
  simp [run, runStep, applyAddc, getV, mkLeaf, emit, Except.map, Except.bind,
    backward, resolveSeed, elemCount, addcT, Graph.empty]

/-- C5 as amended: for every Value `x` with differentiation enabled,
`y = x + constant` followed by `backward` with the explicit unit (ones) seed
— or by a seedless `backward()` when `x` is scalar — leaves `x.grad` equal
to a ones-array matching `x`'s shape, the Add rule passing the output
gradient unchanged to its operand. -/
theorem add_const_backward_ones (t : Tensor) (c : ℚ) :
    xGradOf ((run Graph.empty [.leaf t true, .addc 0 c]).bind
        (fun g => backward g 1 (some (onesLike t)) false))
      = some (some (onesLike t)) ∧
    (elemCount t = 1 →
      xGradOf ((run Graph.empty [.leaf t true, .addc 0 c]).bind
          (fun g => backward g 1 none false))
        = some (some (onesLike t))) := by
  constructor
  · simp [run, runStep, applyAddc, getV, mkLeaf, emit, Except.map, Except.bind,
      backward, resolveSeed, elemCount, backwardDelta, propagateAll,
      processRecord, contrib, accOne, addOpt, writeGrads, gradAt, xGradOf,
      addcT, onesLike, fullT, Graph.empty]
  · intro h1
    have h1' : t.data.length = 1 := h1
    simp [run, runStep, applyAddc, getV, mkLeaf, emit, Except.map, Except.bind,
      backward, resolveSeed, elemCount, backwardDelta, propagateAll,
      processRecord, contrib, accOne, addOpt, writeGrads, gradAt, xGradOf,
      addcT, onesLike, fullT, Graph.empty, h1']

/-- C5 witness: the amended claim applied to a concrete scalar Value. -/
theorem add_const_backward_ones_witness :
    xGradOf ((run Graph.empty [.leaf ⟨[], [7]⟩ true, .addc 0 2]).bind
        (fun g => backward g 1 (some (onesLike ⟨[], [7]⟩)) false))
      = some (some (onesLike ⟨[], [7]⟩)) ∧
    xGradOf ((run Graph.empty [.leaf ⟨[], [7]⟩ true, .addc 0 2]).bind
        (fun g => backward g 1 none false))
      = some (some (onesLike ⟨[], [7]⟩)) :=
  ⟨(add_const_backward_ones ⟨[], [7]⟩ 2).1,
   (add_const_backward_ones ⟨[], [7]⟩ 2).2 rfl⟩

theorem writeGrads_getElem (gm : GradMap) :
    ∀ (vs : List Value) (k i : Nat),
      (writeGrads gm k vs)[i]?
        = (vs[i]?).map (fun v =>
            match gm (k + i) with
            | some d => { v with grad := some (addOpt v.grad d) }
            | none => v) := by
  intro vs
  induction vs with
  | nil => intro k i; simp [writeGrads]
  | cons v vs ih =>
      intro k i
      cases i with
      | zero => simp [writeGrads]
      | succ i =>
          simp only [writeGrads, List.getElem?_cons_succ]
          rw [ih (k + 1) i]
          have harith : k + 1 + i = k + (i + 1) := by omega
          rw [harith]

theorem getV_writeback (g : Graph) (δ : GradMap) (fr : Bool) (k : Nat) :
    getV ⟨writeGrads δ 0 g.values, g.records, fr⟩ k
      = (getV g k).map (fun v =>
          match δ k with
          | some d => { v with grad := some (addOpt v.grad d) }
          | none => v) := by
  show (writeGrads δ 0 g.values)[k]? = _
  rw [writeGrads_getElem δ g.values 0 k]
  simp [getV, Nat.zero_add]

theorem resolveSeed_payload (v w : Value) (seed : Option Tensor)
    (h : v.payload = w.payload) : resolveSeed v seed = resolveSeed w seed := by
  unfold resolveSeed
  rw [h]

theorem backwardDelta_writeback (g : Graph) (δ : GradMap) (fr : Bool)
    (t : Nat) (s : Tensor) :
    backwardDelta ⟨writeGrads δ 0 g.values, g.records, fr⟩ t s
      = backwardDelta g t s := by
  funext k
  unfold backwardDelta
  rw [getV_writeback]
  cases hg : getV g k with
  | none => rfl
  | some v =>
      cases hd : δ k with
      | none => rfl
      | some d => rfl

theorem backward_ok_iff (g : Graph) (t : Nat) (seed : Option Tensor)
    (retain : Bool) (g' : Graph) :
    backward g t seed retain = .ok g' ↔
      ∃ v s, g.freed = false ∧ getV g t = some v ∧
        (v.gradFn.isNone && !v.requiresGrad) = false ∧
        resolveSeed v seed = .ok s ∧
        g' = ⟨writeGrads (backwardDelta g t s) 0 g.values, g.records, !retain⟩ := by
  by_cases hfr : g.freed
  · constructor
    · intro h
      simp [backward, hfr] at h
    · rintro ⟨v1, s1, hfr1, -, -, -, -⟩
      rw [hfr] at hfr1
      cases hfr1
  · simp only [Bool.not_eq_true] at hfr
    cases hg : getV g t with
    | none =>
        constructor
        · intro h
          simp [backward, hfr, hg] at h
        · rintro ⟨v1, s1, -, hg1, -, -, -⟩
          cases hg1
    | some v =>
        by_cases hc : (v.gradFn.isNone && !v.requiresGrad) = true
        · constructor
          · intro h
            simp [backward, hfr, hg, hc] at h
          · rintro ⟨v1, s1, -, hg1, hc1, -, -⟩
            injection hg1 with hv1
            subst hv1
            rw [hc1] at hc
            cases hc
        · cases hs : resolveSeed v seed with
          | error e =>
              constructor
              · intro h
                simp [backward, hfr, hg, hc, hs] at h
              · rintro ⟨v1, s1, -, hg1, -, hs1, -⟩
                injection hg1 with hv1
                subst hv1
                rw [hs] at hs1
                cases hs1
          | ok s =>
              have hL : backward g t seed retain
                  = .ok ⟨writeGrads (backwardDelta g t s) 0 g.values,
                      g.records, !retain⟩ := by
                simp [backward, hfr, hg, hc, hs]
              constructor
              · intro h
                rw [hL] at h
                injection h with h
                exact ⟨v, s, hfr, rfl, by simpa using hc, hs, h.symm⟩
              · rintro ⟨v1, s1, -, hg1, -, hs1, hE⟩
                injection hg1 with hv1
                subst hv1
                rw [hs] at hs1
                injection hs1 with hs1
                subst hs1
                rw [hL, hE]

/-- C4: after a successful `backward` without retention, every further
`backward` call on the resulting graph raises GraphError; after a successful
`backward` with retention, a repeated `backward` from the same terminal with
the same seed succeeds and re-accumulates the same gradient increments
additively into the accumulators (pass one writes `δ` on top of the original
accumulators, pass two writes the same `δ` again on top of pass one's). -/
theorem backward_twice_contract (g : Graph) (t : Nat) (seed : Option Tensor) :
    (∀ g1, backward g t seed false = .ok g1 →
        ∀ (t2 : Nat) (s2 : Option Tensor) (r2 : Bool),
          backward g1 t2 s2 r2 = .error .graphError) ∧
    (∀ g1, backward g t seed true = .ok g1 →
        ∃ (δ : GradMap) (g2 : Graph),
          g1.values = writeGrads δ 0 g.values ∧
          backward g1 t seed true = .ok g2 ∧
          g2.values = writeGrads δ 0 g1.values) := by
  constructor
  · intro g1 h t2 s2 r2
    obtain ⟨v, s, -, -, -, -, hg1⟩ := (backward_ok_iff g t seed false g1).mp h
    subst hg1
    simp [backward]
  · intro g1 h
    obtain ⟨v, s, hfr, hg, hc, hs, hg1⟩ := (backward_ok_iff g t seed true g1).mp h
    refine ⟨backwardDelta g t s,
      ⟨writeGrads (backwardDelta g1 t s) 0 g1.values, g1.records, !true⟩,
      by rw [hg1], ?_, ?_⟩
    · refine (backward_ok_iff g1 t seed true _).mpr ?_
      have hgv : getV g1 t
          = some (match backwardDelta g t s t with
              | some d => { v with grad := some (addOpt v.grad d) }
              | none => v) := by
        rw [hg1, getV_writeback, hg]
        rfl
      cases hd : backwardDelta g t s t with
      | none =>
          rw [hd] at hgv
          exact ⟨v, s, by simp [hg1], hgv, hc, hs, rfl⟩
      | some d =>
          rw [hd] at hgv
          exact ⟨{ v with grad := some (addOpt v.grad d) }, s,
            by simp [hg1], hgv, hc, hs, rfl⟩
    · rw [hg1, backwardDelta_writeback]

/-- C4 witness: the contract applied to a concrete two-value graph (a scalar
leaf and the result of adding 1 to it): without retention the second call
raises GraphError; with retention the second pass re-writes the same
increment. -/
theorem backward_twice_contract_witness :
    backward ⟨[⟨⟨[], [2]⟩, true, none, some ⟨[], [1]⟩⟩,
        ⟨⟨[], [3]⟩, true, some 0, none⟩], [⟨.addc 0 1, 1⟩], true⟩ 1 none true
      = .error .graphError ∧
    (∃ (δ : GradMap) (g2 : Graph),
      (⟨[⟨⟨[], [2]⟩, true, none, some ⟨[], [1]⟩⟩,
          ⟨⟨[], [3]⟩, true, some 0, none⟩], [⟨.addc 0 1, 1⟩], false⟩ :
            Graph).values
        = writeGrads δ 0
            (⟨[⟨⟨[], [2]⟩, true, none, none⟩,
                ⟨⟨[], [3]⟩, true, some 0, none⟩], [⟨.addc 0 1, 1⟩], false⟩ :
                  Graph).values ∧
      backward ⟨[⟨⟨[], [2]⟩, true, none, some ⟨[], [1]⟩⟩,
          ⟨⟨[], [3]⟩, true, some 0, none⟩], [⟨.addc 0 1, 1⟩], false⟩ 1 none true
        = .ok g2 ∧
      g2.values
        = writeGrads δ 0
            (⟨[⟨⟨[], [2]⟩, true, none, some ⟨[], [1]⟩⟩,
                ⟨⟨[], [3]⟩, true, some 0, none⟩], [⟨.addc 0 1, 1⟩], false⟩ :
                  Graph).values) :=
  ⟨(backward_twice_contract
      ⟨[⟨⟨[], [2]⟩, true, none, none⟩, ⟨⟨[], [3]⟩, true, some 0, none⟩],
        [⟨.addc 0 1, 1⟩], false⟩ 1 none).1
      ⟨[⟨⟨[], [2]⟩, true, none, some ⟨[], [1]⟩⟩,
        ⟨⟨[], [3]⟩, true, some 0, none⟩], [⟨.addc 0 1, 1⟩], true⟩ rfl 1 none true,
   (backward_twice_contract
      ⟨[⟨⟨[], [2]⟩, true, none, none⟩, ⟨⟨[], [3]⟩, true, some 0, none⟩],
        [⟨.addc 0 1, 1⟩], false⟩ 1 none).2
      ⟨[⟨⟨[], [2]⟩, true, none, some ⟨[], [1]⟩⟩,
        ⟨⟨[], [3]⟩, true, some 0, none⟩], [⟨.addc 0 1, 1⟩], false⟩ rfl⟩

theorem getElem_append_last {α : Type} (l : List α) (v : α) :
    (l ++ [v])[l.length]? = some v := by
  simp

theorem emit_spec (g : Graph) (p : Tensor) (rg : Bool) (op : OpKind) :
    (emit g p rg op).2 = g.values.length ∧
    ∃ v, getV (emit g p rg op).1 g.values.length = some v ∧
      v.payload = p ∧ v.requiresGrad = rg ∧
      (rg = true → v.gradFn = some g.records.length ∧
          (emit g p rg op).1.records = g.records ++ [⟨op, g.values.length⟩]) ∧
      (rg = false → v.gradFn = none ∧
          (emit g p rg op).1.records = g.records) := by
  cases rg with
  | false =>
      refine ⟨rfl, ⟨p, false, none, none⟩, ?_, rfl, rfl, ?_, ?_⟩
      · show (g.values ++ [⟨p, false, none, none⟩])[g.values.length]? = _
        exact getElem_append_last _ _
      · intro h; cases h
      · intro _; exact ⟨rfl, rfl⟩
  | true =>
      refine ⟨rfl, ⟨p, true, some g.records.length, none⟩, ?_, rfl, rfl, ?_, ?_⟩
      · show (g.values ++ [⟨p, true, some g.records.length, none⟩])[g.values.length]? = _
        exact getElem_append_last _ _
      · intro _; exact ⟨rfl, rfl⟩
      · intro h; cases h

/-- C6: a binary forward call validates shape compatibility (ShapeError on a
mismatch), allocates its output Value with differentiation flag equal to the
OR of the input flags, and attaches a new Operation Record referencing the
call's inputs and rule exactly when that flag is true (a flag-false output
has no owning record and the record arena is untouched); the unary mean
behaves the same with a single input flag. -/
theorem forward_op_contract (g : Graph) (i j : Nat) (a b : Value)
    (ha : getV g i = some a) (hb : getV g j = some b) :
    (a.payload.shape ≠ b.payload.shape →
        applyAdd g i j = .error .shapeError ∧
        applyMul g i j = .error .shapeError) ∧
    (∀ g' n, applyAdd g i j = .ok (g', n) →
        n = g.values.length ∧
        ∃ v, getV g' n = some v ∧
          v.payload = addT a.payload b.payload ∧
          v.requiresGrad = (a.requiresGrad || b.requiresGrad) ∧
          ((a.requiresGrad || b.requiresGrad) = true →
              v.gradFn = some g.records.length ∧
              g'.records = g.records ++ [⟨.add i j, n⟩]) ∧
          ((a.requiresGrad || b.requiresGrad) = false →
              v.gradFn = none ∧ g'.records = g.records)) ∧
    (∀ g' n, applyMul g i j = .ok (g', n) →
        n = g.values.length ∧
        ∃ v, getV g' n = some v ∧
          v.payload = mulT a.payload b.payload ∧
          v.requiresGrad = (a.requiresGrad || b.requiresGrad) ∧
          ((a.requiresGrad || b.requiresGrad) = true →
              v.gradFn = some g.records.length ∧
              g'.records = g.records ++ [⟨.mul i j a.payload b.payload, n⟩]) ∧
          ((a.requiresGrad || b.requiresGrad) = false →
              v.gradFn = none ∧ g'.records = g.records)) ∧
    (∀ g' n, applyMean g i = .ok (g', n) →
        n = g.values.length ∧
        ∃ v, getV g' n = some v ∧
          v.payload = meanT a.payload ∧
          v.requiresGrad = a.requiresGrad ∧
          (a.requiresGrad = true →
              v.gradFn = some g.records.length ∧
              g'.records = g.records
                ++ [⟨.mean i a.payload.shape (elemCount a.payload), n⟩]) ∧
          (a.requiresGrad = false →
              v.gradFn = none ∧ g'.records = g.records)) := by
  refine ⟨?_, ?_, ?_, ?_⟩
  · intro hne
    constructor
    · simp [applyAdd, ha, hb, hne]
    · simp [applyMul, ha, hb, hne]
  · intro g' n h
    by_cases hsh : a.payload.shape = b.payload.shape
    · simp only [applyAdd, ha, hb, hsh, if_pos] at h
      injection h with h
      obtain ⟨hn, v, hv⟩ := emit_spec g (addT a.payload b.payload)
        (a.requiresGrad || b.requiresGrad) (.add i j)
      rw [h] at hn hv
      have hn' : n = g.values.length := hn
      subst hn'
      exact ⟨rfl, v, hv⟩
    · simp [applyAdd, ha, hb, hsh] at h
  · intro g' n h
    by_cases hsh : a.payload.shape = b.payload.shape
    · simp only [applyMul, ha, hb, hsh, if_pos] at h
      injection h with h
      obtain ⟨hn, v, hv⟩ := emit_spec g (mulT a.payload b.payload)
        (a.requiresGrad || b.requiresGrad) (.mul i j a.payload b.payload)
      rw [h] at hn hv
      have hn' : n = g.values.length := hn
      subst hn'
      exact ⟨rfl, v, hv⟩
    · simp [applyMul, ha, hb, hsh] at h
  · intro g' n h
    simp only [applyMean, ha] at h
    injection h with h
    obtain ⟨hn, v, hv⟩ := emit_spec g (meanT a.payload) a.requiresGrad
      (.mean i a.payload.shape (elemCount a.payload))
    rw [h] at hn hv
    have hn' : n = g.values.length := hn
    subst hn'
    exact ⟨rfl, v, hv⟩

/-- C6 witness: the forward contract applied to a concrete graph of two
shape-compatible leaves, the first requiring gradients: the add output's
flag is the OR true of the flags and a record referencing inputs 0 and 1 is
attached. -/
theorem forward_op_contract_witness :
    ∃ v, getV ⟨[⟨⟨[2], []⟩, true, none, none⟩, ⟨⟨[2], []⟩, false, none, none⟩,
          ⟨addT ⟨[2], []⟩ ⟨[2], []⟩, true, some 0, none⟩],
        [⟨.add 0 1, 2⟩], false⟩ 2 = some v ∧
      v.payload = addT ⟨[2], []⟩ ⟨[2], []⟩ ∧
      v.requiresGrad = (true || false) ∧
      v.gradFn = some 0 ∧
      (⟨[⟨⟨[2], []⟩, true, none, none⟩, ⟨⟨[2], []⟩, false, none, none⟩,
          ⟨addT ⟨[2], []⟩ ⟨[2], []⟩, true, some 0, none⟩],
        [⟨.add 0 1, 2⟩], false⟩ : Graph).records = [⟨.add 0 1, 2⟩] := by
  obtain ⟨hn, v, hv1, hv2, hv3, hv4, hv5⟩ :=
    (forward_op_contract
      ⟨[⟨⟨[2], []⟩, true, none, none⟩, ⟨⟨[2], []⟩, false, none, none⟩], [], false⟩
      0 1 ⟨⟨[2], []⟩, true, none, none⟩ ⟨⟨[2], []⟩, false, none, none⟩
      rfl rfl).2.1
      ⟨[⟨⟨[2], []⟩, true, none, none⟩, ⟨⟨[2], []⟩, false, none, none⟩,
          ⟨addT ⟨[2], []⟩ ⟨[2], []⟩, true, some 0, none⟩],
        [⟨.add 0 1, 2⟩], false⟩ 2 rfl
  exact ⟨v, hv1, hv2, hv3, (hv4 rfl).1, (hv4 rfl).2⟩

theorem zipWith_replicate_mul (q : ℚ) (d : List ℚ) :
    List.zipWith (· * ·) (List.replicate d.length q) d = d.map (fun v => q * v) := by
  induction d with
  | nil => rfl
  | cons x xs ih => simp [List.replicate, ih]

theorem zipWith_add_map_self (f : ℚ → ℚ) (d : List ℚ) :
    List.zipWith (· + ·) (d.map f) (d.map f) = d.map (fun v => f v + f v) := by
  induction d with
  | nil => rfl
  | cons x xs ih => simp [ih]

/-- C1: for every Value `x` with differentiation enabled,
`y = x * x; out = mean(y); out.backward()` leaves `x.grad` equal to `2*x/n`
elementwise, `n` the element count of `x`; and the tutorial pipeline on a
2x2 Value of ones — `y = x + 2; z = y * y * 3; out = z.mean();
out.backward()` — leaves `x.grad` equal to 4.5 (= 9/2) at every position. -/
theorem square_mean_backward_grad :
    (∀ t : Tensor,
      xGradOf ((run Graph.empty [.leaf t true, .mul 0 0, .mean 1]).bind
          (fun g => backward g 2 none false))
        = some (some ⟨t.shape, t.data.map (fun v => 2 * v / (elemCount t : ℚ))⟩)) ∧
    xGradOf ((run Graph.empty [.leaf ⟨[2, 2], [1, 1, 1, 1]⟩ true, .addc 0 2,
        .mul 1 1, .mulc 2 3, .mean 3]).bind
        (fun g => backward g 4 none false))
      = some (some (fullT [2, 2] 4 (9 / 2))) := by
  constructor
  · intro t
    simp [run, runStep, applyMul, applyMean, getV, mkLeaf, emit, Except.map,
      Except.bind, backward, resolveSeed, elemCount, backwardDelta, propagateAll,
      processRecord, contrib, accOne, addOpt, writeGrads, gradAt, xGradOf,
      mulT, addT, fullT, meanT, Graph.empty, List.length_zipWith, Nat.min_self,
      zipWith_replicate_mul, zipWith_add_map_self, List.map_inj_left]
    intro a _
    ring
  · norm_num [run, runStep, applyAddc, applyMul, applyMulc, applyMean, getV,
      mkLeaf, emit, Except.map, Except.bind, backward, resolveSeed, elemCount,
      backwardDelta, propagateAll, processRecord, contrib, accOne, addOpt,
      writeGrads, gradAt, xGradOf, mulT, addT, addcT, scaleT, fullT, meanT,
      sumT, Graph.empty, List.length_zipWith, Nat.min_self]
    norm_num [List.replicate]

/-- C9 counterexample: Value 1 is produced by an operation (it has an owning
record, second conjunct), its flag is then set to false in place, and it is
added to a fresh leaf that requires gradients: the output's differentiation
flag is true, not disabled — the OR-of-flags semantics keeps the other
operand's flag decisive. -/
theorem setRG_false_downstream_flag_cex :
    ((run Graph.empty [.leaf ⟨[], []⟩ true, .mulc 0 2]).bind (fun g =>
        (applyAdd ((mkLeaf (setRG g 1 false) ⟨[], []⟩ true).1) 1 2).map
          (fun p => (getV p.1 3).map Value.requiresGrad)))
      = .ok (some true) ∧
    ((run Graph.empty [.leaf ⟨[], []⟩ true, .mulc 0 2]).bind (fun g =>
        .ok ((getV g 1).map Value.gradFn)))
      = .ok (some (some 0)) :=
  ⟨rfl, rfl⟩

theorem setRG_getV_self (g : Graph) (i : Nat) (v : Value) (b : Bool)
    (hv : getV g i = some v) :
    getV (setRG g i b) i = some { v with requiresGrad := b } := by
  obtain ⟨hlt, -⟩ := List.getElem?_eq_some.mp hv
  unfold setRG
  rw [hv]
  show (g.values.set i { v with requiresGrad := b })[i]? = _
  exact List.getElem?_set_self hlt

/-- C9 as amended: clearing the flag of a Value that has an owning Operation
Record, then applying an operation to it, produces outputs with
differentiation disabled provided every other operand of the operation also
has its flag unset (a unary scaling, an add with a flag-false operand, a
multiply of the Value with itself); the toggled Value contributes false to
the OR of forward-time flags, but an operand whose flag is still set keeps
the output differentiable. -/
theorem setRG_false_downstream_flag (g : Graph) (i : Nat) (v : Value) (c : ℚ)
    (hv : getV g i = some v) (hrec : v.gradFn.isSome = true) :
    (∀ g' n, applyMulc (setRG g i false) i c = .ok (g', n) →
        ∃ w, getV g' n = some w ∧ w.requiresGrad = false ∧ w.gradFn = none) ∧
    (∀ j b g' n, getV (setRG g i false) j = some b → b.requiresGrad = false →
        applyAdd (setRG g i false) i j = .ok (g', n) →
        ∃ w, getV g' n = some w ∧ w.requiresGrad = false ∧ w.gradFn = none) ∧
    (∀ g' n, applyMul (setRG g i false) i i = .ok (g', n) →
        ∃ w, getV g' n = some w ∧ w.requiresGrad = false ∧ w.gradFn = none) := by
  have hv' := setRG_getV_self g i v false hv
  refine ⟨?_, ?_, ?_⟩
  · intro g' n h
    simp only [applyMulc, hv'] at h
    injection h with h
    obtain ⟨hn, w, hw1, hw2, hw3, hw4, hw5⟩ :=
      emit_spec (setRG g i false) (scaleT c v.payload) false (.mulc i c)
    rw [h] at hn hw1 hw5
    have hn' : n = (setRG g i false).values.length := hn
    subst hn'
    exact ⟨w, hw1, hw3, (hw5 rfl).1⟩
  · intro j b g' n hb hbrg h
    simp only [applyAdd, hv', hb] at h
    by_cases hsh : v.payload.shape = b.payload.shape
    · rw [if_pos hsh] at h
      injection h with h
      obtain ⟨hn, w, hw1, hw2, hw3, hw4, hw5⟩ :=
        emit_spec (setRG g i false) (addT v.payload b.payload)
          (false || b.requiresGrad) (.add i j)
      rw [h] at hn hw1 hw5
      have hn' : n = (setRG g i false).values.length := hn
      subst hn'
      have hflag : (false || b.requiresGrad) = false := by
        simp [hbrg]
      refine ⟨w, hw1, ?_, (hw5 hflag).1⟩
      rw [hw3, hflag]
    · rw [if_neg hsh] at h
      cases h
  · intro g' n h
    simp only [applyMul, hv'] at h
    rw [if_pos trivial] at h
    injection h with h
    obtain ⟨hn, w, hw1, hw2, hw3, hw4, hw5⟩ :=
      emit_spec (setRG g i false) (mulT v.payload v.payload)
        (false || false) (.mul i i v.payload v.payload)
    rw [h] at hn hw1 hw5
    have hn' : n = (setRG g i false).values.length := hn
    subst hn'
    exact ⟨w, hw1, hw3, (hw5 rfl).1⟩

/-- C9 witness: the amended claim applied to a concrete graph whose Value 1
has an owning record and gets its flag cleared before a unary scaling. -/
theorem setRG_false_downstream_flag_witness :
    ∃ w, getV ⟨[⟨⟨[], []⟩, true, none, none⟩, ⟨⟨[], []⟩, false, some 0, none⟩,
          ⟨scaleT 5 ⟨[], []⟩, false, none, none⟩], [⟨.mulc 0 2, 1⟩], false⟩ 2
        = some w ∧
      w.requiresGrad = false ∧ w.gradFn = none :=
  (setRG_false_downstream_flag
    ⟨[⟨⟨[], []⟩, true, none, none⟩, ⟨⟨[], []⟩, true, some 0, none⟩],
      [⟨.mulc 0 2, 1⟩], false⟩ 1 ⟨⟨[], []⟩, true, some 0, none⟩ 5 rfl rfl).1
    ⟨[⟨⟨[], []⟩, true, none, none⟩, ⟨⟨[], []⟩, false, some 0, none⟩,
        ⟨scaleT 5 ⟨[], []⟩, false, none, none⟩], [⟨.mulc 0 2, 1⟩], false⟩ 2 rfl

theorem getElem_append_left {α : Type} (l l2 : List α) (i : Nat)
    (h : i < l.length) : (l ++ l2)[i]? = l[i]? := by
  rw [List.getElem?_append, if_pos h]

theorem wf_parent_lt (g : Graph) (i j : Nat) (hwf : WF g)
    (hp : parent g i j) : j < i := by
  obtain ⟨v, k, r, hv, hgf, hr, hj⟩ := hp
  obtain ⟨r2, hr2, hout⟩ := hwf.2 i v k hv hgf
  rw [hr] at hr2
  injection hr2 with hr2
  subst hr2
  have := (hwf.1 k r hr).1 j hj
  rw [hout] at this
  exact this

theorem wf_no_cycle (g : Graph) (hwf : WF g) (i : Nat) :
    ¬ Relation.TransGen (parent g) i i := by
  have hlt : ∀ a b : Nat, Relation.TransGen (parent g) a b → b < a := by
    intro a b h
    induction h with
    | single h => exact wf_parent_lt g _ _ hwf h
    | tail hab hbc ih => exact lt_trans (wf_parent_lt g _ _ hwf hbc) ih
  intro h
  exact absurd (hlt i i h) (lt_irrefl i)

theorem append_value_wf (g : Graph) (x : Value) (hx : x.gradFn = none)
    (hwf : WF g) : WF ⟨g.values ++ [x], g.records, g.freed⟩ := by
  constructor
  · intro k r hr
    refine ⟨(hwf.1 k r hr).1, ?_⟩
    have := (hwf.1 k r hr).2
    simp only [List.length_append, List.length_cons, List.length_nil]
    omega
  · intro i v k hv hk
    by_cases hi : i < g.values.length
    · rw [show (⟨g.values ++ [x], g.records, g.freed⟩ : Graph).values
          = g.values ++ [x] from rfl, getElem_append_left _ _ _ hi] at hv
      exact hwf.2 i v k hv hk
    · by_cases hi2 : i = g.values.length
      · subst hi2
        rw [show (⟨g.values ++ [x], g.records, g.freed⟩ : Graph).values
            = g.values ++ [x] from rfl, getElem_append_last] at hv
        injection hv with hv
        subst hv
        rw [hx] at hk
        cases hk
      · have hge : (g.values ++ [x]).length ≤ i := by
          simp only [List.length_append, List.length_cons, List.length_nil]
          omega
        rw [show (⟨g.values ++ [x], g.records, g.freed⟩ : Graph).values
            = g.values ++ [x] from rfl, List.getElem?_eq_none hge] at hv
        cases hv

theorem emit_wf (g : Graph) (p : Tensor) (rg : Bool) (op : OpKind)
    (hin : ∀ x ∈ recInputs ⟨op, g.values.length⟩, x < g.values.length)
    (hwf : WF g) : WF (emit g p rg op).1 := by
  cases rg with
  | false => exact append_value_wf g ⟨p, false, none, none⟩ rfl hwf
  | true =>
      constructor
      · intro k r hr
        by_cases hk : k < g.records.length
        · rw [show (emit g p true op).1.records
              = g.records ++ [(⟨op, g.values.length⟩ : Record)] from rfl,
            getElem_append_left _ _ _ hk] at hr
          refine ⟨(hwf.1 k r hr).1, ?_⟩
          have := (hwf.1 k r hr).2
          show r.out < (g.values ++ [(⟨p, true, some g.records.length, none⟩ : Value)]).length
          simp only [List.length_append, List.length_cons, List.length_nil]
          omega
        · by_cases hk2 : k = g.records.length
          · subst hk2
            rw [show (emit g p true op).1.records
                = g.records ++ [(⟨op, g.values.length⟩ : Record)] from rfl,
              getElem_append_last] at hr
            injection hr with hr
            subst hr
            refine ⟨hin, ?_⟩
            show g.values.length
              < (g.values ++ [(⟨p, true, some g.records.length, none⟩ : Value)]).length
            simp
          · have hge : (g.records ++ [(⟨op, g.values.length⟩ : Record)]).length ≤ k := by
              simp only [List.length_append, List.length_cons, List.length_nil]
              omega
            rw [show (emit g p true op).1.records
                = g.records ++ [(⟨op, g.values.length⟩ : Record)] from rfl,
              List.getElem?_eq_none hge] at hr
            cases hr
      · intro i v k hv hk
        by_cases hi : i < g.values.length
        · rw [show (emit g p true op).1.values
              = g.values ++ [(⟨p, true, some g.records.length, none⟩ : Value)] from rfl,
            getElem_append_left _ _ _ hi] at hv
          obtain ⟨r, hr, hout⟩ := hwf.2 i v k hv hk
          have hklt : k < g.records.length := (List.getElem?_eq_some.mp hr).1
          refine ⟨r, ?_, hout⟩
          rw [show (emit g p true op).1.records
              = g.records ++ [(⟨op, g.values.length⟩ : Record)] from rfl,
            getElem_append_left _ _ _ hklt]
          exact hr
        · by_cases hi2 : i = g.values.length
          · subst hi2
            rw [show (emit g p true op).1.values
                = g.values ++ [(⟨p, true, some g.records.length, none⟩ : Value)] from rfl,
              getElem_append_last] at hv
            injection hv with hv
            subst hv
            injection hk with hk
            subst hk
            refine ⟨⟨op, g.values.length⟩, ?_, rfl⟩
            rw [show (emit g p true op).1.records
                = g.records ++ [(⟨op, g.values.length⟩ : Record)] from rfl,
              getElem_append_last]
          · have hge : (g.values
                ++ [(⟨p, true, some g.records.length, none⟩ : Value)]).length ≤ i := by
              simp only [List.length_append, List.length_cons, List.length_nil]
              omega
            rw [show (emit g p true op).1.values
                = g.values ++ [(⟨p, true, some g.records.length, none⟩ : Value)] from rfl,
              List.getElem?_eq_none hge] at hv
            cases hv

theorem runStep_wf (g : Graph) (s : Step) (g' : Graph) (hwf : WF g)
    (h : runStep g s = .ok g') : WF g' := by
  cases s with
  | leaf t rg =>
      injection h with h
      rw [← h]
      exact append_value_wf g ⟨t, rg, none, none⟩ rfl hwf
  | add i j =>
      cases ha : getV g i with
      | none => simp [runStep, applyAdd, ha, Except.map] at h
      | some a =>
          cases hb : getV g j with
          | none => simp [runStep, applyAdd, ha, hb, Except.map] at h
          | some b =>
              by_cases hsh : a.payload.shape = b.payload.shape
              · simp only [runStep, applyAdd, ha, hb, hsh, if_pos,
                  Except.map] at h
                injection h with h
                rw [← h]
                refine emit_wf g _ _ _ ?_ hwf
                intro x hx
                simp only [recInputs, List.mem_cons, List.mem_singleton,
                  List.not_mem_nil, or_false] at hx
                rcases hx with rfl | rfl
                · exact (List.getElem?_eq_some.mp ha).1
                · exact (List.getElem?_eq_some.mp hb).1
              · simp [runStep, applyAdd, ha, hb, hsh, Except.map] at h
  | addc i c =>
      cases ha : getV g i with
      | none => simp [runStep, applyAddc, ha, Except.map] at h
      | some a =>
          simp only [runStep, applyAddc, ha, Except.map] at h
          injection h with h
          rw [← h]
          refine emit_wf g _ _ _ ?_ hwf
          intro x hx
          simp only [recInputs, List.mem_singleton] at hx
          subst hx
          exact (List.getElem?_eq_some.mp ha).1
  | mul i j =>
      cases ha : getV g i with
      | none => simp [runStep, applyMul, ha, Except.map] at h
      | some a =>
          cases hb : getV g j with
          | none => simp [runStep, applyMul, ha, hb, Except.map] at h
          | some b =>
              by_cases hsh : a.payload.shape = b.payload.shape
              · simp only [runStep, applyMul, ha, hb, hsh, if_pos,
                  Except.map] at h
                injection h with h
                rw [← h]
                refine emit_wf g _ _ _ ?_ hwf
                intro x hx
                simp only [recInputs, List.mem_cons, List.mem_singleton,
                  List.not_mem_nil, or_false] at hx
                rcases hx with rfl | rfl
                · exact (List.getElem?_eq_some.mp ha).1
                · exact (List.getElem?_eq_some.mp hb).1
              · simp [runStep, applyMul, ha, hb, hsh, Except.map] at h
  | mulc i c =>
      cases ha : getV g i with
      | none => simp [runStep, applyMulc, ha, Except.map] at h
      | some a =>
          simp only [runStep, applyMulc, ha, Except.map] at h
          injection h with h
          rw [← h]
          refine emit_wf g _ _ _ ?_ hwf
          intro x hx
          simp only [recInputs, List.mem_singleton] at hx
          subst hx
          exact (List.getElem?_eq_some.mp ha).1
  | mean i =>
      cases ha : getV g i with
      | none => simp [runStep, applyMean, ha, Except.map] at h
      | some a =>
          simp only [runStep, applyMean, ha, Except.map] at h
          injection h with h
          rw [← h]
          refine emit_wf g _ _ _ ?_ hwf
          intro x hx
          simp only [recInputs, List.mem_singleton] at hx
          subst hx
          exact (List.getElem?_eq_some.mp ha).1

theorem run_wf (P : List Step) : ∀ (g g' : Graph), WF g →
    run g P = .ok g' → WF g' := by
  induction P with
  | nil =>
      intro g g' hwf h
      injection h with h
      rw [← h]
      exact hwf
  | cons s ss ih =>
      intro g g' hwf h
      cases hstep : runStep g s with
      | error e => simp [run, hstep] at h
      | ok g1 =>
          simp only [run, hstep] at h
          exact ih g1 g' (runStep_wf g s g1 hwf hstep) h

theorem wf_empty : WF Graph.empty := by
  constructor
  · intro k r hr
    simp [Graph.empty] at hr
  · intro i v k hv
    simp [Graph.empty] at hv

/-- C8: well-formedness — every Operation Record references only input
Values created strictly before its output — is preserved by every forward
construction program, and in a well-formed graph the transitive closure of
the Value - owning record - input Value relation admits no cycle. -/
theorem graph_acyclic_invariant (g : Graph) (P : List Step) (g' : Graph)
    (hwf : WF g) (hrun : run g P = .ok g') :
    WF g' ∧ ∀ i, ¬ Relation.TransGen (parent g') i i := by
  have hwf' := run_wf P g g' hwf hrun
  exact ⟨hwf', wf_no_cycle g' hwf'⟩

/-- C8 witness: the invariant applied to a concrete two-step program run
from the empty graph. -/
theorem graph_acyclic_invariant_witness :
    WF ⟨[⟨⟨[], []⟩, true, none, none⟩, ⟨scaleT 2 ⟨[], []⟩, true, some 0, none⟩],
        [⟨.mulc 0 2, 1⟩], false⟩ ∧
    ¬ Relation.TransGen
        (parent ⟨[⟨⟨[], []⟩, true, none, none⟩,
          ⟨scaleT 2 ⟨[], []⟩, true, some 0, none⟩], [⟨.mulc 0 2, 1⟩], false⟩) 1 1 :=
  ⟨(graph_acyclic_invariant Graph.empty [.leaf ⟨[], []⟩ true, .mulc 0 2]
      ⟨[⟨⟨[], []⟩, true, none, none⟩, ⟨scaleT 2 ⟨[], []⟩, true, some 0, none⟩],
        [⟨.mulc 0 2, 1⟩], false⟩ wf_empty rfl).1,
   (graph_acyclic_invariant Graph.empty [.leaf ⟨[], []⟩ true, .mulc 0 2]
      ⟨[⟨⟨[], []⟩, true, none, none⟩, ⟨scaleT 2 ⟨[], []⟩, true, some 0, none⟩],
        [⟨.mulc 0 2, 1⟩], false⟩ wf_empty rfl).2 1⟩

theorem mem_getElem {α : Type} (l : List α) (a : α) (h : a ∈ l) :
    ∃ n : Nat, l[n]? = some a := by
  obtain ⟨n, hn, he⟩ := List.getElem_of_mem h
  refine ⟨n, ?_⟩
  rw [List.getElem?_eq_getElem hn, he]

theorem foldl_accOne_above (b : Nat) (cs : List (Nat × Tensor)) :
    ∀ gm : GradMap, Above b gm → (∀ p ∈ cs, b ≤ p.1) →
      Above b (cs.foldl accOne gm) := by
  induction cs with
  | nil => intro gm hgm _; exact hgm
  | cons p cs ih =>
      intro gm hgm hcs
      refine ih (accOne gm p) ?_ (fun q hq => hcs q (by simp [hq]))
      intro k hk
      have hbp : b ≤ p.1 := hcs p (by simp)
      have hne : k ≠ p.1 := by omega
      simp only [accOne, if_neg hne]
      exact hgm k hk

theorem contrib_fst_mem (r : Record) (gout : Tensor) :
    ∀ p ∈ contrib r gout, p.1 ∈ recInputs r := by
  intro p hp
  cases hop : r.op with
  | add i j =>
      simp only [contrib, hop, List.mem_cons, List.mem_singleton,
        List.not_mem_nil, or_false] at hp
      rcases hp with rfl | rfl <;> simp [recInputs, hop]
  | addc i c =>
      simp only [contrib, hop, List.mem_singleton] at hp
      subst hp
      simp [recInputs, hop]
  | mul i j pa pb =>
      simp only [contrib, hop, List.mem_cons, List.mem_singleton,
        List.not_mem_nil, or_false] at hp
      rcases hp with rfl | rfl <;> simp [recInputs, hop]
  | mulc i c =>
      simp only [contrib, hop, List.mem_singleton] at hp
      subst hp
      simp [recInputs, hop]
  | mean i sh n =>
      simp only [contrib, hop, List.mem_singleton] at hp
      subst hp
      simp [recInputs, hop]

theorem processRecord_above (b : Nat) (gm : GradMap) (r : Record)
    (hgm : Above b gm)
    (hr : r.out < b ∨ ∀ x ∈ recInputs r, b ≤ x) :
    Above b (processRecord gm r) := by
  unfold processRecord
  cases h : gm r.out with
  | none => exact hgm
  | some gout =>
      rcases hr with hr | hr
      · rw [hgm r.out hr] at h
        cases h
      · refine foldl_accOne_above b _ gm hgm ?_
        intro p hp
        exact hr p.1 (contrib_fst_mem r gout p hp)

theorem foldr_process_above (b : Nat) (rs : List Record) (gm : GradMap)
    (hgm : Above b gm)
    (hrs : ∀ r ∈ rs, r.out < b ∨ ∀ x ∈ recInputs r, b ≤ x) :
    Above b (rs.foldr (fun r gm => processRecord gm r) gm) := by
  induction rs with
  | nil => exact hgm
  | cons r rs ih =>
      refine processRecord_above b _ r ?_ (hrs r (by simp))
      exact ih (fun q hq => hrs q (by simp [hq]))

theorem propagateAll_above (b : Nat) (records : List Record) (t : Nat)
    (seed : Tensor) (ht : b ≤ t)
    (hrs : ∀ r ∈ records, r.out < b ∨ ∀ x ∈ recInputs r, b ≤ x) :
    Above b (propagateAll records t seed) := by
  refine foldr_process_above b records _ ?_ hrs
  intro k hk
  have : k ≠ t := by omega
  simp [this]

theorem backwardDelta_none (g : Graph) (t : Nat) (s : Tensor) (k : Nat)
    (h : propagateAll g.records t s k = none) :
    backwardDelta g t s k = none := by
  unfold backwardDelta
  cases hv : getV g k with
  | none => rfl
  | some v =>
      by_cases hc : (v.requiresGrad && v.gradFn.isNone) = true
      · simp only [hc, if_pos]
        exact h
      · simp only [hc, Bool.false_eq_true, if_false]

theorem getV_writeback_none (g : Graph) (δ : GradMap) (fr : Bool) (k : Nat)
    (h : δ k = none) :
    getV ⟨writeGrads δ 0 g.values, g.records, fr⟩ k = getV g k := by
  rw [getV_writeback, h]
  cases getV g k <;> rfl

theorem emit_frame (g : Graph) (p : Tensor) (rg : Bool) (op : OpKind) :
    (∀ k, k < g.values.length → getV (emit g p rg op).1 k = getV g k) ∧
    g.values.length ≤ (emit g p rg op).1.values.length ∧
    ∃ new, (emit g p rg op).1.records = g.records ++ new ∧
      ∀ r ∈ new, ∀ x ∈ recInputs r, x ∈ recInputs ⟨op, g.values.length⟩ := by
  cases rg with
  | false =>
      refine ⟨?_, ?_, [], by simp [emit], by simp⟩
      · intro k hk
        exact getElem_append_left _ _ _ hk
      · show g.values.length
          ≤ (g.values ++ [(⟨p, false, none, none⟩ : Value)]).length
        simp
  | true =>
      refine ⟨?_, ?_, [⟨op, g.values.length⟩], rfl, ?_⟩
      · intro k hk
        exact getElem_append_left _ _ _ hk
      · show g.values.length
          ≤ (g.values ++ [(⟨p, true, some g.records.length, none⟩ : Value)]).length
        simp
      · intro r hr x hx
        rw [List.mem_singleton] at hr
        subst hr
        exact hx

theorem runStep_frame (g : Graph) (s : Step) (g1 : Graph)
    (h : runStep g s = .ok g1) :
    (∀ k, k < g.values.length → getV g1 k = getV g k) ∧
    g.values.length ≤ g1.values.length ∧
    ∃ new, g1.records = g.records ++ new ∧
      ∀ r ∈ new, ∀ x ∈ recInputs r, x ∈ stepIds s := by
  cases s with
  | leaf t rg =>
      injection h with h
      subst h
      refine ⟨?_, by simp [mkLeaf], [], by simp [mkLeaf], by simp⟩
      intro k hk
      exact getElem_append_left _ _ _ hk
  | add i j =>
      cases ha : getV g i with
      | none => simp [runStep, applyAdd, ha, Except.map] at h
      | some a =>
          cases hb : getV g j with
          | none => simp [runStep, applyAdd, ha, hb, Except.map] at h
          | some b =>
              by_cases hsh : a.payload.shape = b.payload.shape
              · simp only [runStep, applyAdd, ha, hb, hsh, if_pos,
                  Except.map] at h
                injection h with h
                subst h
                obtain ⟨h1, h2, new, h3, h4⟩ := emit_frame g
                  (addT a.payload b.payload)
                  (a.requiresGrad || b.requiresGrad) (.add i j)
                exact ⟨h1, h2, new, h3, fun r hr x hx => h4 r hr x hx⟩
              · simp [runStep, applyAdd, ha, hb, hsh, Except.map] at h
  | addc i c =>
      cases ha : getV g i with
      | none => simp [runStep, applyAddc, ha, Except.map] at h
      | some a =>
          simp only [runStep, applyAddc, ha, Except.map] at h
          injection h with h
          subst h
          obtain ⟨h1, h2, new, h3, h4⟩ := emit_frame g (addcT c a.payload)
            a.requiresGrad (.addc i c)
          exact ⟨h1, h2, new, h3, fun r hr x hx => h4 r hr x hx⟩
  | mul i j =>
      cases ha : getV g i with
      | none => simp [runStep, applyMul, ha, Except.map] at h
      | some a =>
          cases hb : getV g j with
          | none => simp [runStep, applyMul, ha, hb, Except.map] at h
          | some b =>
              by_cases hsh : a.payload.shape = b.payload.shape
              · simp only [runStep, applyMul, ha, hb, hsh, if_pos,
                  Except.map] at h
                injection h with h
                subst h
                obtain ⟨h1, h2, new, h3, h4⟩ := emit_frame g
                  (mulT a.payload b.payload)
                  (a.requiresGrad || b.requiresGrad)
                  (.mul i j a.payload b.payload)
                exact ⟨h1, h2, new, h3, fun r hr x hx => h4 r hr x hx⟩
              · simp [runStep, applyMul, ha, hb, hsh, Except.map] at h
  | mulc i c =>
      cases ha : getV g i with
      | none => simp [runStep, applyMulc, ha, Except.map] at h
      | some a =>
          simp only [runStep, applyMulc, ha, Except.map] at h
          injection h with h
          subst h
          obtain ⟨h1, h2, new, h3, h4⟩ := emit_frame g (scaleT c a.payload)
            a.requiresGrad (.mulc i c)
          exact ⟨h1, h2, new, h3, fun r hr x hx => h4 r hr x hx⟩
  | mean i =>
      cases ha : getV g i with
      | none => simp [runStep, applyMean, ha, Except.map] at h
      | some a =>
          simp only [runStep, applyMean, ha, Except.map] at h
          injection h with h
          subst h
          obtain ⟨h1, h2, new, h3, h4⟩ := emit_frame g (meanT a.payload)
            a.requiresGrad (.mean i a.payload.shape (elemCount a.payload))
          exact ⟨h1, h2, new, h3, fun r hr x hx => h4 r hr x hx⟩

theorem run_frame (P : List Step) : ∀ (b : Nat) (g g' : Graph),
    StepsAbove b P → run g P = .ok g' →
    (∀ k, k < g.values.length → getV g' k = getV g k) ∧
    g.values.length ≤ g'.values.length ∧
    ∃ new, g'.records = g.records ++ new ∧
      ∀ r ∈ new, ∀ x ∈ recInputs r, b ≤ x := by
  induction P with
  | nil =>
      intro b g g' _ h
      injection h with h
      subst h
      exact ⟨fun k _ => rfl, le_refl _, [], by simp, by simp⟩
  | cons s ss ih =>
      intro b g g' hSA h
      cases hstep : runStep g s with
      | error e => simp [run, hstep] at h
      | ok g1 =>
          simp only [run, hstep] at h
          obtain ⟨st1, le1, new1, hrec1, hin1⟩ := runStep_frame g s g1 hstep
          obtain ⟨st2, le2, new2, hrec2, hin2⟩ :=
            ih b g1 g' (fun s2 h2 => hSA s2 (by simp [h2])) h
          refine ⟨?_, le_trans le1 le2, new1 ++ new2, ?_, ?_⟩
          · intro k hk
            rw [st2 k (lt_of_lt_of_le hk le1), st1 k hk]
          · rw [hrec2, hrec1, List.append_assoc]
          · intro r hr x hx
            rw [List.mem_append] at hr
            rcases hr with hr | hr
            · exact hSA s (by simp) x (hin1 r hr x hx)
            · exact hin2 r hr x hx

/-- C7: `detach` returns a new Value with the same payload, no owning
Operation Record and the differentiation flag cleared; and any downstream
computation built only from the detached Value (and fresh Values), followed
by a `backward` from a downstream terminal, leaves the gradient accumulators
of every pre-existing Value — in particular all of the original Value's
ancestors — unchanged. -/
theorem detach_frame (g : Graph) (i : Nat) (g1 : Graph) (d : Nat)
    (hwf : WF g) (hdet : detach g i = .ok (g1, d)) :
    (∃ v, getV g i = some v ∧ d = g.values.length ∧
        getV g1 d = some ⟨v.payload, false, none, none⟩) ∧
    (∀ (P : List Step) (g2 : Graph) (t : Nat) (seed : Option Tensor)
        (retain : Bool) (g3 : Graph),
      StepsAbove d P → run g1 P = .ok g2 → d ≤ t →
      backward g2 t seed retain = .ok g3 →
      ∀ k, k < g.values.length → gradAt g3 k = gradAt g k) := by
  cases hv : getV g i with
  | none => simp [detach, hv] at hdet
  | some v =>
      simp only [detach, hv] at hdet
      injection hdet with hdet
      have hg1 : g1 = ⟨g.values ++ [⟨v.payload, false, none, none⟩],
          g.records, g.freed⟩ := ((Prod.ext_iff.mp hdet).1).symm
      have hd : d = g.values.length := ((Prod.ext_iff.mp hdet).2).symm
      subst hd
      constructor
      · refine ⟨v, rfl, rfl, ?_⟩
        rw [hg1]
        exact getElem_append_last _ _
      · intro P g2 t seed retain g3 hSA hrun ht hbwd k hk
        obtain ⟨st, hle, new, hrecs, hins⟩ :=
          run_frame P g.values.length g1 g2 hSA hrun
        obtain ⟨vb, sb, hfr2, hgt2, hc2, hs2, hg3⟩ :=
          (backward_ok_iff g2 t seed retain g3).mp hbwd
        have hrecords1 : g1.records = g.records := by rw [hg1]
        have habove : Above g.values.length (propagateAll g2.records t sb) := by
          refine propagateAll_above g.values.length g2.records t sb ht ?_
          intro r hr
          rw [hrecs, hrecords1, List.mem_append] at hr
          rcases hr with hr | hr
          · left
            obtain ⟨n, hn⟩ := mem_getElem _ r hr
            exact (hwf.1 n r hn).2
          · right
            exact hins r hr
        have hdelta : backwardDelta g2 t sb k = none :=
          backwardDelta_none g2 t sb k (habove k hk)
        have hget3 : getV g3 k = getV g2 k := by
          rw [hg3]
          exact getV_writeback_none g2 _ _ k hdelta
        have hlen1 : k < g1.values.length := by
          rw [hg1]
          simp only [List.length_append, List.length_cons, List.length_nil]
          omega
        have hget2 : getV g2 k = getV g1 k := st k hlen1
        have hget1 : getV g1 k = getV g k := by
          rw [hg1]
          exact getElem_append_left _ _ _ hk
        unfold gradAt
        rw [hget3, hget2, hget1]

/-- C7 witness: detaching the single leaf of a one-value graph, building a
fresh leaf and a multiply on the detached Value downstream, and running
backward from the product with an explicit seed leaves the original leaf's
accumulator untouched. -/
theorem detach_frame_witness :
    (∃ v, getV ⟨[⟨⟨[], []⟩, true, none, none⟩], [], false⟩ 0 = some v ∧
        (1 : Nat) = 1 ∧
        getV ⟨[⟨⟨[], []⟩, true, none, none⟩, ⟨⟨[], []⟩, false, none, none⟩],
            [], false⟩ 1
          = some ⟨v.payload, false, none, none⟩) ∧
    gradAt ⟨[⟨⟨[], []⟩, true, none, none⟩, ⟨⟨[], []⟩, false, none, none⟩,
        ⟨⟨[], []⟩, true, none, some (mulT ⟨[], []⟩ ⟨[], []⟩)⟩,
        ⟨mulT ⟨[], []⟩ ⟨[], []⟩, true, some 0, none⟩],
        [⟨.mul 1 2 ⟨[], []⟩ ⟨[], []⟩, 3⟩], true⟩ 0
      = gradAt ⟨[⟨⟨[], []⟩, true, none, none⟩], [], false⟩ 0 :=
  ⟨(detach_frame ⟨[⟨⟨[], []⟩, true, none, none⟩], [], false⟩ 0
      ⟨[⟨⟨[], []⟩, true, none, none⟩, ⟨⟨[], []⟩, false, none, none⟩], [], false⟩
      1 (run_wf [.leaf ⟨[], []⟩ true] Graph.empty _ wf_empty rfl) rfl).1,
   (detach_frame ⟨[⟨⟨[], []⟩, true, none, none⟩], [], false⟩ 0
      ⟨[⟨⟨[], []⟩, true, none, none⟩, ⟨⟨[], []⟩, false, none, none⟩], [], false⟩
      1 (run_wf [.leaf ⟨[], []⟩ true] Graph.empty _ wf_empty rfl) rfl).2
     [.leaf ⟨[], []⟩ true, .mul 1 2]
     ⟨[⟨⟨[], []⟩, true, none, none⟩, ⟨⟨[], []⟩, false, none, none⟩,
        ⟨⟨[], []⟩, true, none, none⟩,
        ⟨mulT ⟨[], []⟩ ⟨[], []⟩, true, some 0, none⟩],
       [⟨.mul 1 2 ⟨[], []⟩ ⟨[], []⟩, 3⟩], false⟩
     3 (some ⟨[], []⟩) false
     ⟨[⟨⟨[], []⟩, true, none, none⟩, ⟨⟨[], []⟩, false, none, none⟩,
        ⟨⟨[], []⟩, true, none, some (mulT ⟨[], []⟩ ⟨[], []⟩)⟩,
        ⟨mulT ⟨[], []⟩ ⟨[], []⟩, true, some 0, none⟩],
       [⟨.mul 1 2 ⟨[], []⟩ ⟨[], []⟩, 3⟩], true⟩
     (by
       intro s hs x hx
       simp only [List.mem_cons, List.not_mem_nil, or_false] at hs
       rcases hs with rfl | rfl
       · simp [stepIds] at hx
       · simp only [stepIds, List.mem_cons, List.mem_singleton,
           List.not_mem_nil, or_false] at hx
         rcases hx with rfl | rfl <;> omega)
     rfl (by omega) rfl 0 (by decide)⟩
end AutogradSpec
